import Mathlib

/-!
Verification of the Projectkronos kernel core: the quantizing encoder of
`bin.minutemedusa.WORKINGPERFECTLY.rs` (`ZenithKernel::write`), the
cadence-expansion interpolator of `src/bin.expand.rs` (`cubic_interpolate`,
`read_hour_positions`, `main`), and the locator of `src/bin/paraboladb.rs`
(`ParabolaReader::find_closest_time`).

Floating-point `f64` values are modelled as exact rationals (`ℚ`); integer
casts (`as u32`) are modelled by `Int.toNat ∘ Int.floor`, which agrees with
Rust's saturating float-to-int cast on the value ranges that occur here
(truncation toward zero for non-negative values, saturation at 0 below).
-/

namespace Kronos

/-- Rust's `f64::rem_euclid(360.0)` on exact rationals: the representative of
`x` modulo 360 lying in `[0, 360)`. -/
def emod360 (x : ℚ) : ℚ := x - 360 * (⌊x / 360⌋ : ℚ)

/-- The single-step wrap-around adjustment applied to each delta in
`cubic_interpolate` (`src/bin.expand.rs` lines 17–19): subtract 360 if the
delta exceeds 180, add 360 if it is below −180, otherwise leave it. -/
def wrapDelta (d : ℚ) : ℚ :=
  if d > 180 then d - 360 else if d < -180 then d + 360 else d

/-- `cubic_interpolate` from `src/bin.expand.rs` lines 7–32, verbatim on
rationals: deltas of `pos0`, `pos2`, `pos3` from `pos1` are wrap-adjusted,
Catmull-Rom-style coefficients are formed (note the raw `pos1`, not its zero
delta, inside `a` and `b`), and the cubic value is reduced by `rem_euclid`. -/
def cubic_interpolate (pos0 pos1 pos2 pos3 t : ℚ) : ℚ :=
  let t2 := t * t
  let t3 := t2 * t
  let p0 := wrapDelta (pos0 - pos1)
  let p2 := wrapDelta (pos2 - pos1)
  let p3 := wrapDelta (pos3 - pos1)
  let a := -0.5 * p0 + 1.5 * p2 - 1.5 * pos1 + 0.5 * p3
  let b := p0 - 2.5 * p2 + 2.0 * pos1 - 0.5 * p3
  let c := -0.5 * p0 + 0.5 * p2
  let d := pos1
  emod360 (a * t3 + b * t2 + c * t + d)

/-- The true mathematical wrap of a delta into `(-180, 180]`, as the spec's
circular-adjustment sentence describes it ("adding/subtracting 360 as
needed"). -/
def wrapSpec (d : ℚ) : ℚ := d - 360 * (⌈(d - 180) / 360⌉ : ℚ)

/-- The interpolation formula exactly as claim C1 states it: Catmull-Rom
coefficients on the wrapped deltas with `p1`'s own delta taken as `0`
(`- 1.5*0` in `a`, `+ 2.0*0` in `b`). -/
def cubicSpecC1 (pos0 pos1 pos2 pos3 t : ℚ) : ℚ :=
  let d0 := wrapSpec (pos0 - pos1)
  let d2 := wrapSpec (pos2 - pos1)
  let d3 := wrapSpec (pos3 - pos1)
  let a := -0.5 * d0 + 1.5 * d2 - 1.5 * 0 + 0.5 * d3
  let b := d0 - 2.5 * d2 + 2.0 * 0 - 0.5 * d3
  let c := -0.5 * d0 + 0.5 * d2
  emod360 (a * t ^ 3 + b * t ^ 2 + c * t + pos1)

/-- The interpolation formula as the amended claim C1 states it: the same
shape as the claim's formula, but the deltas receive the code's single
±360 adjustment and the raw `p1` (not its zero delta) enters `a` and `b`. -/
def cubicAmendedC1 (pos0 pos1 pos2 pos3 t : ℚ) : ℚ :=
  let d0 := wrapDelta (pos0 - pos1)
  let d2 := wrapDelta (pos2 - pos1)
  let d3 := wrapDelta (pos3 - pos1)
  let a := -0.5 * d0 + 1.5 * d2 - 1.5 * pos1 + 0.5 * d3
  let b := d0 - 2.5 * d2 + 2.0 * pos1 - 0.5 * d3
  let c := -0.5 * d0 + 0.5 * d2
  emod360 (a * t ^ 3 + b * t ^ 2 + c * t + pos1)

/-- Rust's `as u32` cast applied to a (finite) float value: truncation toward
zero, saturating at `0` from below. On the values produced by the writer
(non-negative and far below `2^32`) this is exactly `Int.toNat ∘ Int.floor`. -/
def asU32 (x : ℚ) : ℕ := (⌊x⌋).toNat

/-- The encoder of `ZenithKernel::write` (`bin.minutemedusa.WORKINGPERFECTLY.rs`
lines 133–134): `pos = xx[0].rem_euclid(360.0); centisec = (pos * 3600.0 * 100.0) as u32`. -/
def encode (degrees : ℚ) : ℕ := asU32 (emod360 degrees * (3600 * 100))

/-- The encoder exactly as claim C4 states it: `round(normalize(degrees) * 3600 * 100)`. -/
def encodeRounded (degrees : ℚ) : ℕ := (round (emod360 degrees * (3600 * 100))).toNat

/-- Modelled from the spec: no decoder of the packed `u32` format exists under
`src/` (the readers there consume raw `f64` kernels), so the decode direction
is taken from §4.1 of the spec: `degrees = packed / (3600 * 100)`. -/
def decode (packed : ℕ) : ℚ := (packed : ℚ) / (3600 * 100)

/-! ## The expand binary (`src/bin.expand.rs`)

The coarse kernel file it reads is an 8-byte base Julian date followed by
consecutive little-endian `f64` words. A file is modelled by its base date
and the list of complete 8-byte words after the header; a read of word `i`
succeeds exactly when `i` is within the list (a truncated trailing fragment
of fewer than 8 bytes is unreadable by `read_exact` and so not represented).
-/

structure ExpandFile where
  baseJd : ℚ
  words : List ℚ
deriving DecidableEq

/-- Byte size of the modelled file (header plus 8 bytes per word). -/
def ExpandFile.size (f : ExpandFile) : ℕ := 8 + 8 * f.words.length

/-- One iteration step of the body loop of `read_hour_positions`
(`src/bin.expand.rs` lines 43–54): read the next word; on success push it,
on failure push the last value already in the vector, or `0.0` if none. -/
def readStep (words : List ℚ) (start : ℕ) (acc : List ℚ) (j : ℕ) : List ℚ :=
  match words[start + j]? with
  | some w => acc ++ [w]
  | none => acc ++ [acc.getLast?.getD 0]

/-- The body loop of `read_hour_positions` starting at word index `start`,
reading `n` consecutive positions. -/
def readHourList (words : List ℚ) (start n : ℕ) : List ℚ :=
  (List.range n).foldl (readStep words start) []

/-- `read_hour_positions` (`src/bin.expand.rs` lines 34–57): seek to
`8 + hour_offset * num_bodies * 8` and read `num_bodies` positions with the
per-position fallback. It always returns `Ok` — the seek cannot fail and a
failed read is absorbed by the fallback — so the model is a total function. -/
def read_hour_positions (f : ExpandFile) (hour_offset num_bodies : ℕ) : List ℚ :=
  readHourList f.words (hour_offset * num_bodies) num_bodies

/-- `main` of `src/bin.expand.rs`, lines 72–77: after the 8-byte header, words
are read until end-of-file to form `first_hour`, so `first_hour` is the whole
word list and `num_bodies` its full length. -/
def firstHour (f : ExpandFile) : List ℚ := f.words

/-- `num_bodies = first_hour.len()` (`src/bin.expand.rs` line 77). -/
def numBodies (f : ExpandFile) : ℕ := (firstHour f).length

/-- `total_hours = (kernel_size - 8) / (8 * num_bodies)` (`src/bin.expand.rs`
line 80), in integer (here natural) division. With `num_bodies = 0` the Rust
program panics on division by zero; the model's `0` then corresponds to no
records being emitted. -/
def totalHours (f : ExpandFile) : ℕ := (f.size - 8) / (8 * numBodies f)

/-- The fine records written by `main`'s hour/minute loops (`src/bin.expand.rs`
lines 92–126): one record of `num_bodies` interpolated positions per minute,
60 minutes per processed hour. Rust's `h[i]` indexing is modelled by `getD`;
the four control vectors always have length `num_bodies`, so the default is
never taken. -/
def expandRecords (f : ExpandFile) : List (List ℚ) :=
  (List.range (totalHours f)).flatMap (fun hour =>
    let h0 := if hour > 0 then read_hour_positions f (hour - 1) (numBodies f) else firstHour f
    let h1 := if hour = 0 then firstHour f else read_hour_positions f hour (numBodies f)
    let h2 := read_hour_positions f (hour + 1) (numBodies f)
    let h3 := read_hour_positions f (hour + 2) (numBodies f)
    (List.range 60).map (fun minute : ℕ =>
      let t : ℚ := (minute : ℚ) / 60
      (List.range (numBodies f)).map (fun i =>
        cubic_interpolate (h0.getD i 0) (h1.getD i 0) (h2.getD i 0) (h3.getD i 0) t)))

/-! ## The kernel writer (`bin.minutemedusa.WORKINGPERFECTLY.rs`)

`ZenithKernel::write` is modelled by the trace of file-system operations it
performs; a small semantics applies a trace to a map from paths to contents.
Each `write_all` call becomes one abstract chunk.
-/

inductive TimePrec where
  | minute
  | hour
  | day
deriving DecidableEq

/-- `TimePrec::to_jd` (lines 26–32): the interval in fractional days. -/
def TimePrec.toJd : TimePrec → ℚ
  | .minute => 1 / 1440
  | .hour => (1 / 1440) * 60
  | .day => 1

/-- `self.precision as u8` (line 100): the enum discriminant. -/
def TimePrec.toU8 : TimePrec → ℕ
  | .minute => 0
  | .hour => 1
  | .day => 2

/-- One `write_all` payload of `ZenithKernel::write`, kept abstract: the magic
bytes, a single byte, a little-endian `f64`, or a little-endian `u32`. -/
inductive Chunk where
  | magic
  | byte (b : ℕ)
  | f64 (x : ℚ)
  | u32 (n : ℕ)
deriving DecidableEq

/-- A file-system operation performed by the writer: `File::create` (truncate
or create the path empty), an appending `write_all`, or a rename. The source
never performs a rename; the constructor exists so that the spec's
write-temp/rename discipline is expressible about traces. -/
inductive FileOp where
  | create (path : String)
  | append (path : String) (c : Chunk)
  | rename (src dst : String)
deriving DecidableEq

/-- Apply one trace of file operations to a file system, a map from paths to
chunk lists. -/
def runOps : List FileOp → (String → List Chunk) → (String → List Chunk)
  | [], fs => fs
  | FileOp.create p :: rest, fs =>
      runOps rest (fun q => if q = p then [] else fs q)
  | FileOp.append p c :: rest, fs =>
      runOps rest (fun q => if q = p then fs q ++ [c] else fs q)
  | FileOp.rename src dst :: rest, fs =>
      runOps rest (fun q => if q = dst then fs src else if q = src then [] else fs q)

/-- The in-memory kernel of `bin.minutemedusa.WORKINGPERFECTLY.rs` lines
11–16. Its `base_positions` were already normalized by `rem_euclid(360.0)`
when `ZenithKernel::new` computed them (line 73). -/
structure ZenithKernel where
  timestamp : ℚ
  basePositions : List ℚ
  timeDelta : ℚ
  precision : TimePrec

/-- `intervals = (self.time_delta / self.precision.to_jd()).ceil() as u32`
(line 112); the saturating cast sends a negative ceiling to 0. -/
def ZenithKernel.intervals (k : ZenithKernel) : ℕ :=
  (⌈k.timeDelta / k.precision.toJd⌉).toNat

/-- `writeChunks` lists, in order, every `write_all` payload of
`ZenithKernel::write` (lines 98–135): the header, the 20 base positions
(normalized already in `ZenithKernel::new`), then — only for the oracle
calls that succeed — one packed `u32` per `(interval, body)`; a failing
`swe_calc_ut` call (`oracle i b = none`) writes nothing and raises no
error. -/
def ZenithKernel.writeChunks (k : ZenithKernel) (oracle : ℕ → ℕ → Option ℚ) :
    List Chunk :=
  [Chunk.magic,
   Chunk.byte 1,
   Chunk.byte k.precision.toU8,
   Chunk.f64 k.timestamp,
   Chunk.f64 k.timeDelta]
  ++ k.basePositions.map (fun p => Chunk.u32 (asU32 (p * (3600 * 100))))
  ++ (List.range k.intervals).flatMap (fun i =>
      (List.range 20).filterMap (fun b =>
        (oracle i b).map (fun x => Chunk.u32 (asU32 (emod360 x * (3600 * 100))))))

/-- The file-operation trace of `ZenithKernel::write` (lines 93–141): the
code opens the final path `"zenith.kernel"` itself with `File::create`
(truncating any existing file) and then appends each payload to it; no
temporary path and no rename appear anywhere. -/
def ZenithKernel.writeTrace (k : ZenithKernel) (oracle : ℕ → ℕ → Option ℚ) :
    List FileOp :=
  FileOp.create "zenith.kernel" ::
    (k.writeChunks oracle).map (FileOp.append "zenith.kernel")

/-- Whether a file operation is a rename. -/
def FileOp.isRename : FileOp → Bool
  | .rename _ _ => true
  | _ => false

/-! ## The locator (`src/bin/paraboladb.rs`)

`find_closest_time` scans records of 168 bytes (an 8-byte timestamp plus 20
8-byte positions), reading the timestamp at the head of each record and
keeping the byte offset of the first timestamp with the strictly smallest
`|timestamp - target|`. The file is modelled by its list of per-record
timestamps; `closest_diff` starts at `f64::MAX`, modelled as "no diff yet". -/

/-- The scan loop of `find_closest_time` (`src/bin/paraboladb.rs` lines
83–95): `offset` is the byte offset of the next record, the state is the best
`(closest_offset, closest_diff)` so far. -/
def fctLoop (target : ℚ) : List ℚ → ℕ → ℕ × Option ℚ → ℕ × Option ℚ
  | [], _, best => best
  | ts :: rest, offset, (bo, bd) =>
      let diff := |ts - target|
      let best := match bd with
        | none => (offset, some diff)
        | some d => if diff < d then (offset, some diff) else (bo, some d)
      fctLoop target rest (offset + 168) best

/-- `ParabolaReader::find_closest_time` (`src/bin/paraboladb.rs` lines
78–98): the byte offset of the record whose stored timestamp is closest to
`target_jd` (first record wins ties); `Ok(0)` on an empty file. -/
def find_closest_time (timestamps : List ℚ) (target : ℚ) : ℕ :=
  (fctLoop target timestamps 0 (0, none)).1

/-! ## Concrete inputs used for C3 -/

/-- A kernel whose every oracle call fails: one day-interval from a range of
one day, all base positions `0`. -/
def failedKernel : ZenithKernel :=
  { timestamp := 0
    basePositions := List.replicate 20 0
    timeDelta := 1
    precision := TimePrec.day }

/-- An oracle for which every `(timestamp, body)` computation fails. -/
def failingOracle : ℕ → ℕ → Option ℚ := fun _ _ => none

/-- A file system on which a kernel file has already been published at
`"zenith.kernel"` with some prior content. -/
def publishedFs : String → List Chunk :=
  fun p => if p = "zenith.kernel" then [Chunk.f64 42] else []

/-! ## Normalization lemmas -/

theorem emod360_nonneg (x : ℚ) : 0 ≤ emod360 x := by
  have h := Int.floor_le (x / 360)
  have h360 : (0:ℚ) < 360 := by norm_num
  unfold emod360
  nlinarith [h]

theorem emod360_lt (x : ℚ) : emod360 x < 360 := by
  have h := Int.lt_floor_add_one (x / 360)
  unfold emod360
  nlinarith [h]

theorem emod360_eq_self {x : ℚ} (h0 : 0 ≤ x) (h1 : x < 360) : emod360 x = x := by
  have hfl : ⌊x / 360⌋ = 0 := by
    apply Int.floor_eq_zero_iff.mpr
    constructor
    · positivity
    · rw [div_lt_one (by norm_num : (0:ℚ) < 360)] at *
      linarith
  unfold emod360
  rw [hfl]
  push_cast
  ring

/-! ## Interpolator theorems (claims C1, C6, C9) -/

theorem cubic_interpolate_eq_amended (pos0 pos1 pos2 pos3 t : ℚ) :
    cubic_interpolate pos0 pos1 pos2 pos3 t = cubicAmendedC1 pos0 pos1 pos2 pos3 t := by
  simp only [cubic_interpolate, cubicAmendedC1]
  ring_nf

/-- C1 (counterexample): at the concrete control positions
`p0 = p1 = p2 = p3 = 180` and `t = 1/2` — all deltas are `0`, so the claim's
formula reduces to `normalize(p1) = 180` — the code's `cubic_interpolate`
instead returns `236.25`, because the raw `pos1 = 180` (not its zero delta)
enters the `a` and `b` coefficients. -/
theorem c1_claim_counterexample :
    cubic_interpolate 180 180 180 180 (1/2) ≠ cubicSpecC1 180 180 180 180 (1/2) := by
  have hd : wrapDelta ((180:ℚ) - 180) = 0 := by norm_num [wrapDelta]
  have hs : wrapSpec ((180:ℚ) - 180) = 0 := by
    unfold wrapSpec
    norm_num
  simp only [cubic_interpolate, cubicSpecC1, hd, hs]
  norm_num
  rw [emod360_eq_self (by norm_num) (by norm_num),
    emod360_eq_self (by norm_num) (by norm_num)]
  norm_num

/-- C1 (amended): for every four control positions and every `t ∈ [0, 1)`,
`cubic_interpolate` returns `normalize(a*t³ + b*t² + c*t + p1)` where the
deltas `d0, d2, d3` of `p0, p2, p3` from `p1` receive a single ±360
adjustment (subtract 360 if the delta exceeds 180, add 360 if below −180),
and `a = -0.5*d0 + 1.5*d2 - 1.5*p1 + 0.5*d3`,
`b = d0 - 2.5*d2 + 2.0*p1 - 0.5*d3`, `c = -0.5*d0 + 0.5*d2` — the raw `p1`,
not its zero delta, enters `a` and `b`. -/
theorem c1_amended_formula (pos0 pos1 pos2 pos3 t : ℚ)
    (ht0 : 0 ≤ t) (ht1 : t < 1) :
    cubic_interpolate pos0 pos1 pos2 pos3 t = cubicAmendedC1 pos0 pos1 pos2 pos3 t :=
  cubic_interpolate_eq_amended pos0 pos1 pos2 pos3 t

/-- C1 (witness): the amended formula at the concrete input
`(10, 20, 30, 40)`, `t = 1/2`. -/
theorem c1_amended_formula_witness :
    0 ≤ (1/2 : ℚ) ∧ (1/2 : ℚ) < 1 ∧
      cubic_interpolate 10 20 30 40 (1/2) = cubicAmendedC1 10 20 30 40 (1/2) :=
  ⟨by norm_num, by norm_num,
    c1_amended_formula 10 20 30 40 (1/2) (by norm_num) (by norm_num)⟩

/-- C6: for every four control positions with `p1 ∈ [0, 360)`, the
interpolation at `t = 0` returns exactly `p1`: the cubic's value at `0` is
the constant term `pos1`, and `rem_euclid(360.0)` fixes any value already in
`[0, 360)`. -/
theorem c6_value_at_zero (pos0 pos1 pos2 pos3 : ℚ)
    (h0 : 0 ≤ pos1) (h1 : pos1 < 360) :
    cubic_interpolate pos0 pos1 pos2 pos3 0 = pos1 := by
  have key : ∀ a b c : ℚ,
      a * (0 * 0 * 0) + b * (0 * 0) + c * 0 + pos1 = pos1 := by
    intro a b c
    ring
  simp only [cubic_interpolate]
  rw [key]
  exact emod360_eq_self h0 h1

/-- C6 (witness): the boundary value at the concrete interval
`(5, 10, 20, 30)`. -/
theorem c6_value_at_zero_witness :
    0 ≤ (10 : ℚ) ∧ (10 : ℚ) < 360 ∧ cubic_interpolate 5 10 20 30 0 = 10 :=
  ⟨by norm_num, by norm_num, c6_value_at_zero 5 10 20 30 (by norm_num) (by norm_num)⟩

/-- C9: for every four control positions and every `t ∈ [0, 1)`, the
interpolated position lies in `[0, 360)`: the final `rem_euclid(360.0)` of
`cubic_interpolate` forces the range invariant. -/
theorem c9_range_invariant (pos0 pos1 pos2 pos3 t : ℚ)
    (ht0 : 0 ≤ t) (ht1 : t < 1) :
    0 ≤ cubic_interpolate pos0 pos1 pos2 pos3 t ∧
      cubic_interpolate pos0 pos1 pos2 pos3 t < 360 := by
  simp only [cubic_interpolate]
  exact ⟨emod360_nonneg _, emod360_lt _⟩

/-- C9 (witness): the range invariant at the concrete input
`(350, 10, 40, 80)`, `t = 1/2`. -/
theorem c9_range_invariant_witness :
    0 ≤ (1/2 : ℚ) ∧ (1/2 : ℚ) < 1 ∧
      0 ≤ cubic_interpolate 350 10 40 80 (1/2) ∧
      cubic_interpolate 350 10 40 80 (1/2) < 360 :=
  ⟨by norm_num, by norm_num, c9_range_invariant 350 10 40 80 (1/2) (by norm_num) (by norm_num)⟩

/-! ## Codec theorems (claims C4, C5) -/

theorem emod360_mul_nonneg (d : ℚ) : 0 ≤ emod360 d * (3600 * 100) := by
  have := emod360_nonneg d
  nlinarith

theorem encode_cast (d : ℚ) : (encode d : ℤ) = ⌊emod360 d * (3600 * 100)⌋ := by
  unfold encode asU32
  exact Int.toNat_of_nonneg (Int.floor_nonneg.mpr (emod360_mul_nonneg d))

/-- C4 (counterexample): at `degrees = 1/400000` (where
`normalize(degrees) * 360000 = 0.9`), the encoder of `ZenithKernel::write`
stores `0` — the `as u32` cast truncates — while the claim's
`round(normalize(degrees) * 3600 * 100)` is `1`. -/
theorem c4_claim_counterexample :
    encode (1/400000) ≠ encodeRounded (1/400000) := by
  have hm : emod360 (1/400000) = 1/400000 :=
    emod360_eq_self (by norm_num) (by norm_num)
  unfold encode encodeRounded asU32
  rw [hm]
  rw [round_eq]
  norm_num

/-- C4 (amended): for every input angle, the encoder stores the truncation
(here: floor of the non-negative product) of `normalize(degrees) * 3600 * 100`
rather than its rounding — the unique integer `n` with
`n ≤ normalize(degrees)*360000 < n+1` — and the stored value fits a `u32`;
encoding never fails (Rust's `as u32` cast saturates instead of failing). -/
theorem c4_amended_truncating_encoder (d : ℚ) :
    (encode d : ℚ) ≤ emod360 d * (3600 * 100) ∧
      emod360 d * (3600 * 100) < (encode d : ℚ) + 1 ∧
      encode d < 2 ^ 32 := by
  have hcast : ((encode d : ℤ) : ℚ) = ((⌊emod360 d * (3600 * 100)⌋ : ℤ) : ℚ) := by
    rw [encode_cast]
  push_cast at hcast
  refine ⟨?_, ?_, ?_⟩
  · rw [hcast]
    exact Int.floor_le _
  · rw [hcast]
    exact Int.lt_floor_add_one _
  · have hlt : emod360 d * (3600 * 100) < 129600000 := by
      have := emod360_lt d
      nlinarith
    have hq : ((⌊emod360 d * (3600 * 100)⌋ : ℤ) : ℚ) < 129600000 :=
      lt_of_le_of_lt (Int.floor_le _) hlt
    have hfl : (⌊emod360 d * (3600 * 100)⌋ : ℤ) < 129600000 := by exact_mod_cast hq
    have henc : (encode d : ℤ) < 129600000 := by rw [encode_cast]; exact hfl
    omega

/-- C5: for every `d ∈ [0, 360)`, decoding the encoded value
(`packed / 360000`, decode modelled from the spec) is within `1/360000` of
`d`; with the truncating encoder the error is `frac(d * 360000)/360000`. -/
theorem c5_round_trip (d : ℚ) (h0 : 0 ≤ d) (h1 : d < 360) :
    |decode (encode d) - d| ≤ 1/360000 := by
  have hm : emod360 d = d := emod360_eq_self h0 h1
  have hint : (encode d : ℤ) = ⌊d * (3600 * 100)⌋ := by rw [encode_cast, hm]
  have hval : (encode d : ℚ) = ((⌊d * (3600 * 100)⌋ : ℤ) : ℚ) := by exact_mod_cast hint
  have hle : ((⌊d * (3600 * 100)⌋ : ℤ) : ℚ) ≤ d * (3600 * 100) := Int.floor_le _
  have hgt : d * (3600 * 100) < ((⌊d * (3600 * 100)⌋ : ℤ) : ℚ) + 1 :=
    Int.lt_floor_add_one _
  unfold decode
  rw [hval, abs_le]
  have hrw : ((⌊d * (3600 * 100)⌋ : ℤ) : ℚ) / (3600 * 100) - d =
      (((⌊d * (3600 * 100)⌋ : ℤ) : ℚ) - d * (3600 * 100)) / (3600 * 100) := by
    ring
  rw [hrw]
  constructor
  · have hnum : (-1 : ℚ) ≤ ((⌊d * (3600 * 100)⌋ : ℤ) : ℚ) - d * (3600 * 100) := by
      linarith
    calc (-(1/360000) : ℚ) = (-1) / (3600 * 100) := by norm_num
      _ ≤ (((⌊d * (3600 * 100)⌋ : ℤ) : ℚ) - d * (3600 * 100)) / (3600 * 100) := by
          gcongr
  · have hnum : ((⌊d * (3600 * 100)⌋ : ℤ) : ℚ) - d * (3600 * 100) ≤ 1 := by
      linarith
    calc (((⌊d * (3600 * 100)⌋ : ℤ) : ℚ) - d * (3600 * 100)) / (3600 * 100)
        ≤ 1 / (3600 * 100) := by gcongr
      _ = 1/360000 := by norm_num

/-- C5 (witness): the round trip at the concrete angle `d = 10`. -/
theorem c5_round_trip_witness :
    0 ≤ (10 : ℚ) ∧ (10 : ℚ) < 360 ∧ |decode (encode 10) - 10| ≤ 1/360000 :=
  ⟨by norm_num, by norm_num, c5_round_trip 10 (by norm_num) (by norm_num)⟩

/-! ## Truncated-read theorems (claims C7, C10) -/

theorem readHourList_succ (w : List ℚ) (s n : ℕ) :
    readHourList w s (n + 1) = readStep w s (readHourList w s n) n := by
  unfold readHourList
  rw [List.range_succ, List.foldl_append, List.foldl_cons, List.foldl_nil]

theorem readHourList_length (w : List ℚ) (s n : ℕ) :
    (readHourList w s n).length = n := by
  induction n with
  | zero => rfl
  | succ k ih =>
    rw [readHourList_succ]
    unfold readStep
    cases hw : w[s + k]? <;> simp [ih]

theorem readHourList_getElem?_stable (w : List ℚ) (s n j : ℕ) (hj : j < n) :
    (readHourList w s (n + 1))[j]? = (readHourList w s n)[j]? := by
  have hlen : j < (readHourList w s n).length := by
    rw [readHourList_length]; exact hj
  rw [readHourList_succ]
  unfold readStep
  cases hw : w[s + n]? <;> exact List.getElem?_append_left hlen

theorem readHourList_fallback (w : List ℚ) (s : ℕ) :
    ∀ n j, j < n → w[s + j]? = none →
      (readHourList w s n)[j]? =
        some (if j = 0 then 0 else ((readHourList w s n)[j - 1]?).getD 0) := by
  intro n
  induction n with
  | zero => intro j hj; omega
  | succ k ih =>
    intro j hj hw
    by_cases hjk : j < k
    · rw [readHourList_getElem?_stable w s k j hjk, ih j hjk hw]
      by_cases hj0 : j = 0
      · simp [hj0]
      · have hj1 : j - 1 < k := by omega
        rw [readHourList_getElem?_stable w s k (j - 1) hj1]
    · have hjeq : j = k := by omega
      subst hjeq
      rw [readHourList_succ]
      unfold readStep
      rw [hw]
      have hlen : (readHourList w s j).length = j := readHourList_length w s j
      have hcat := List.getElem?_concat_length (readHourList w s j)
        ((readHourList w s j).getLast?.getD 0)
      rw [hlen] at hcat
      rw [hcat]
      by_cases hj0 : j = 0
      · subst hj0
        have : readHourList w s 0 = [] := rfl
        rw [this]
        simp
      · have hj1 : j - 1 < (readHourList w s j).length := by omega
        rw [if_neg hj0, List.getElem?_append_left hj1,
          List.getLast?_eq_getElem?, hlen]

/-- C7 (evaluation at the failing input): on a file whose words are
`[10, 20, 30]` read as two-body records — record 0 complete (`10, 20`),
record 1 truncated after its first body (`30`) — `read_hour_positions` at
hour offset 1 returns `[30, 30]`: the missing second body receives the
*first body's* value `30` from the same record, not the same body's
prior-record value `20` as the claim states. -/
theorem c7_replicate_is_same_record :
    read_hour_positions ⟨0, [10, 20, 30]⟩ 1 2 = [30, 30] ∧
      read_hour_positions ⟨0, [10, 20, 30]⟩ 1 2 ≠ [30, 20] := by
  constructor
  · rfl
  · intro h
    have h30 : ((30 : ℚ) :: [30]) = (30 : ℚ) :: [20] := h
    have := (List.cons_eq_cons.mp h30).2
    have h2 : (30 : ℚ) = 20 := (List.cons_eq_cons.mp this).1
    norm_num at h2

/-- C10: `read_hour_positions` is total and returns exactly `num_bodies`
values for every file, offset and body count; a position whose word is past
the end of the file is replaced by the previously pushed value of the same
record, or `0.0` for the first body. -/
theorem c10_read_hour_positions_total (f : ExpandFile) (off n : ℕ) :
    (read_hour_positions f off n).length = n ∧
      ∀ j, j < n → f.words[off * n + j]? = none →
        (read_hour_positions f off n)[j]? =
          some (if j = 0 then 0 else ((read_hour_positions f off n)[j - 1]?).getD 0) := by
  constructor
  · exact readHourList_length f.words (off * n) n
  · intro j hj hw
    exact readHourList_fallback f.words (off * n) n j hj hw

/-- C10 (witness): reading two bodies at hour offset 2 of a three-word file —
both words are past end-of-file, and the first body falls back to `0`. -/
theorem c10_read_hour_positions_total_witness :
    (read_hour_positions ⟨0, [10, 20, 30]⟩ 2 2).length = 2 ∧
      (read_hour_positions ⟨0, [10, 20, 30]⟩ 2 2)[0]? =
        some (if 0 = 0 then 0
          else ((read_hour_positions ⟨0, [10, 20, 30]⟩ 2 2)[0 - 1]?).getD 0) :=
  ⟨(c10_read_hour_positions_total ⟨0, [10, 20, 30]⟩ 2 2).1,
    (c10_read_hour_positions_total ⟨0, [10, 20, 30]⟩ 2 2).2 0 (by norm_num) rfl⟩

/-! ## Expansion record count (claim C2) -/

theorem sum_map_const_length (N c : ℕ) (g : ℕ → List (List ℚ))
    (hg : ∀ h, (g h).length = c) :
    ((List.range N).map (List.length ∘ g)).sum = c * N := by
  have hrep : (List.range N).map (List.length ∘ g) = List.replicate N c := by
    apply List.eq_replicate_iff.mpr
    constructor
    · simp
    · intro b hb
      obtain ⟨a, _, ha⟩ := List.mem_map.mp hb
      rw [← ha]
      exact hg a
  rw [hrep, List.sum_replicate, smul_eq_mul, Nat.mul_comm]

theorem expandRecords_length (f : ExpandFile) :
    (expandRecords f).length = 60 * totalHours f := by
  unfold expandRecords
  rw [List.length_flatMap]
  apply sum_map_const_length
  intro h
  simp only [List.length_map, List.length_range]

/-- C2 (evaluation at the failing input): expanding the 3-sample,
one-body hourly kernel with words `[10, 20, 30]` emits 60 fine records, not
the 120 the claim requires: `main` reads the whole file as its "first hour",
so `num_bodies` becomes 3 and `total_hours` becomes 1, and the single
processed interval interpolates the entire file toward zeros read past
end-of-file. -/
theorem c2_expand_record_count :
    (expandRecords ⟨0, [10, 20, 30]⟩).length = 60 ∧ (60 : ℕ) ≠ 120 := by
  constructor
  · rw [expandRecords_length]
    rfl
  · norm_num

/-! ## Locator theorems (claim C8) -/

theorem fctLoop_no_improvement (target : ℚ) :
    ∀ (l : List ℚ) (off bo : ℕ) (d : ℚ),
      (∀ ts ∈ l, ¬(|ts - target| < d)) →
      fctLoop target l off (bo, some d) = (bo, some d) := by
  intro l
  induction l with
  | nil => intro off bo d _; rfl
  | cons ts rest ih =>
    intro off bo d hno
    have hts : ¬(|ts - target| < d) := hno ts (List.mem_cons_self ts rest)
    show fctLoop target rest (off + 168)
        (if |ts - target| < d then (off, some |ts - target|) else (bo, some d)) = (bo, some d)
    rw [if_neg hts]
    exact ih (off + 168) bo d (fun x hx => hno x (List.mem_cons_of_mem ts hx))

theorem fctLoop_strict_descent (target : ℚ) :
    ∀ (l : List ℚ) (off bo : ℕ) (bd : Option ℚ),
      l.Chain' (fun a b => |b - target| < |a - target|) →
      (∀ d x, bd = some d → l.head? = some x → |x - target| < d) →
      l ≠ [] →
      (fctLoop target l off (bo, bd)).1 = off + 168 * (l.length - 1) := by
  intro l
  induction l with
  | nil => intro off bo bd _ _ hne; exact absurd rfl hne
  | cons ts rest ih =>
    intro off bo bd hchain hhead _
    have hstep : fctLoop target (ts :: rest) off (bo, bd) =
        fctLoop target rest (off + 168) (off, some |ts - target|) := by
      cases bd with
      | none => rfl
      | some d =>
        have hlt : |ts - target| < d := hhead d ts rfl rfl
        show fctLoop target rest (off + 168)
            (if |ts - target| < d then (off, some |ts - target|) else (bo, some d)) = _
        rw [if_pos hlt]
    rw [hstep]
    cases rest with
    | nil =>
      show (off, some |ts - target|).1 = off + 168 * 0
      simp
    | cons y rs =>
      have hchain' : (y :: rs).Chain' (fun a b => |b - target| < |a - target|) :=
        (List.chain'_cons'.mp hchain).2
      have hy : |y - target| < |ts - target| :=
        (List.chain'_cons.mp hchain).1
      have := ih (off + 168) off (some |ts - target|) hchain'
        (by
          intro d x hd hx
          rw [Option.some_inj] at hd
          have hxy : y = x := by
            simpa using hx
          rw [← hxy, ← hd]
          exact hy)
        (by simp)
      rw [this]
      have hlen : (y :: rs).length - 1 = rs.length := rfl
      rw [hlen]
      show off + 168 + 168 * rs.length = off + 168 * (rs.length + 2 - 1)
      omega

theorem sorted_mem_le_getLast :
    ∀ (l : List ℚ) (hne : l ≠ []), l.Sorted (· < ·) →
      ∀ x ∈ l, x ≤ l.getLast hne := by
  intro l
  induction l with
  | nil => intro hne; exact absurd rfl hne
  | cons a rest ih =>
    intro _ hs x hx
    cases rest with
    | nil =>
      simp at hx
      simp [hx, List.getLast]
    | cons b rs =>
      have hs' : (b :: rs).Sorted (· < ·) := (List.sorted_cons.mp hs).2
      have hlast : (a :: b :: rs).getLast (by simp) = (b :: rs).getLast (by simp) := by
        rfl
      rw [hlast]
      rcases List.mem_cons.mp hx with hxa | hxrest
      · have hab : a < (b :: rs).getLast (by simp) := by
          have hmem := List.getLast_mem (l := b :: rs) (by simp)
          exact (List.sorted_cons.mp hs).1 _ hmem
        rw [hxa]
        exact le_of_lt hab
      · exact ih (by simp) hs' x hxrest

theorem chain_descent_of_sorted (t : ℚ) :
    ∀ (l : List ℚ), l.Sorted (· < ·) → (∀ x ∈ l, x < t) →
      l.Chain' (fun a b => |b - t| < |a - t|) := by
  intro l
  induction l with
  | nil => intro _ _; exact List.chain'_nil
  | cons a rest ih =>
    intro hs hall
    rw [List.chain'_cons']
    constructor
    · intro y hy
      have hymem : y ∈ rest := List.mem_of_mem_head? hy
      have hay : a < y := (List.sorted_cons.mp hs).1 y hymem
      have hyt : y < t := hall y (List.mem_cons_of_mem a hymem)
      have hat : a < t := hall a (List.mem_cons_self a rest)
      rw [abs_of_neg (by linarith : y - t < 0), abs_of_neg (by linarith : a - t < 0)]
      linarith
    · exact ih (List.sorted_cons.mp hs).2 (fun x hx => hall x (List.mem_cons_of_mem a hx))

/-- C8: `find_closest_time` clamps out-of-range lookups: on a non-empty
kernel whose stored record timestamps are strictly increasing, a target
earlier than the first stored time resolves to the first record (byte offset
`0`), and a target later than the last stored time resolves to the last
record (byte offset `168 * (n - 1)`); the scan itself never fails. -/
theorem c8_query_clamps (tss : List ℚ) (t : ℚ) (hne : tss ≠ [])
    (hs : tss.Sorted (· < ·)) :
    (t < tss.head hne → find_closest_time tss t = 0) ∧
    (tss.getLast hne < t → find_closest_time tss t = 168 * (tss.length - 1)) := by
  constructor
  · intro hlt
    cases tss with
    | nil => exact absurd rfl hne
    | cons x rest =>
      rw [List.sorted_cons] at hs
      have hxt : t < x := hlt
      unfold find_closest_time
      have hstep : fctLoop t (x :: rest) 0 (0, none) =
          fctLoop t rest (0 + 168) (0, some |x - t|) := rfl
      rw [hstep, fctLoop_no_improvement]
      intro ts hts
      have hxts : x < ts := hs.1 ts hts
      have h1 : |x - t| = x - t := abs_of_pos (by linarith)
      have h2 : |ts - t| = ts - t := abs_of_pos (by linarith)
      rw [h1, h2]
      linarith
  · intro hgt
    have hall : ∀ x ∈ tss, x < t := by
      intro x hx
      exact lt_of_le_of_lt (sorted_mem_le_getLast tss hne hs x hx) hgt
    have hchain : tss.Chain' (fun a b => |b - t| < |a - t|) :=
      chain_descent_of_sorted t tss hs hall
    unfold find_closest_time
    have hfin := fctLoop_strict_descent t tss 0 0 none hchain
      (fun d x hd => nomatch hd) hne
    rw [hfin]
    omega

/-- C8 (witness): on the stored timestamps `[0, 10, 20]`, the target `-100`
resolves to byte offset 0 (first record) and the target `120` to byte offset
`336 = 168 * 2` (last record). -/
theorem c8_query_clamps_witness :
    find_closest_time [0, 10, 20] (-100) = 0 ∧
      find_closest_time [0, 10, 20] 120 = 168 * (([0, 10, 20] : List ℚ).length - 1) :=
  ⟨(c8_query_clamps [0, 10, 20] (-100) (by simp)
      (by simp [List.sorted_cons]; norm_num)).1
        (by simp only [List.head_cons]; norm_num),
   (c8_query_clamps [0, 10, 20] 120 (by simp)
      (by simp [List.sorted_cons]; norm_num)).2
        (by simp only [List.getLast]; norm_num)⟩

/-! ## Writer publication theorems (claim C3) -/

theorem runOps_appends (p : String) :
    ∀ (cs : List Chunk) (fs : String → List Chunk),
      runOps (cs.map (FileOp.append p)) fs p = fs p ++ cs := by
  intro cs
  induction cs with
  | nil => intro fs; simp [runOps]
  | cons c rest ih =>
    intro fs
    show runOps (rest.map (FileOp.append p))
      (fun q => if q = p then fs q ++ [c] else fs q) p = fs p ++ (c :: rest)
    rw [ih]
    simp

theorem writeTrace_result (k : ZenithKernel) (oracle : ℕ → ℕ → Option ℚ)
    (fs : String → List Chunk) :
    runOps (k.writeTrace oracle) fs "zenith.kernel" = k.writeChunks oracle := by
  show runOps ((k.writeChunks oracle).map (FileOp.append "zenith.kernel"))
    (fun q => if q = "zenith.kernel" then [] else fs q) "zenith.kernel"
    = k.writeChunks oracle
  rw [runOps_appends]
  simp

/-- C3 (counterexample): with a previously published kernel file and an
oracle for which every single call fails — in particular a Strict-mode
oracle failure on the very first `(timestamp, body)` pair — running
`ZenithKernel::write` changes the published path's content: the code
truncates `"zenith.kernel"` in place via `File::create` and appends its
header and base positions, with no temporary path and no rename, so the
failing generation both publishes a file and destroys the prior bytes. -/
theorem c3_claim_counterexample :
    runOps (failedKernel.writeTrace failingOracle) publishedFs "zenith.kernel" ≠
      publishedFs "zenith.kernel" := by
  rw [writeTrace_result]
  intro h
  have hhead : (failedKernel.writeChunks failingOracle).head? = some Chunk.magic := rfl
  rw [h] at hhead
  have hfs : publishedFs "zenith.kernel" = [Chunk.f64 42] := by
    unfold publishedFs
    rw [if_pos rfl]
  rw [hfs] at hhead
  simp at hhead

/-- C3 (amended): `ZenithKernel::write` writes directly to the final path:
its trace begins by truncating `"zenith.kernel"` with `File::create`,
contains no rename at all, and the path's resulting content is exactly the
chunks of this run — independent of any previously published content, which
is therefore destroyed rather than preserved; oracle failures during record
writing are silently skipped rather than aborting publication. -/
theorem c3_amended_direct_write (k : ZenithKernel) (oracle : ℕ → ℕ → Option ℚ) :
    (k.writeTrace oracle).head? = some (FileOp.create "zenith.kernel") ∧
      (∀ op ∈ k.writeTrace oracle, op.isRename = false) ∧
      ∀ fs : String → List Chunk,
        runOps (k.writeTrace oracle) fs "zenith.kernel" = k.writeChunks oracle := by
  refine ⟨rfl, ?_, writeTrace_result k oracle⟩
  intro op hop
  rcases List.mem_cons.mp hop with h | h
  · rw [h]; rfl
  · obtain ⟨c, _, hc⟩ := List.mem_map.mp h
    rw [← hc]; rfl

/-- C3 (witness): the amended theorem applied to the concrete failing run,
with the membership hypothesis discharged at the trace's head operation. -/
theorem c3_amended_direct_write_witness :
    (failedKernel.writeTrace failingOracle).head? =
        some (FileOp.create "zenith.kernel") ∧
      (FileOp.create "zenith.kernel").isRename = false :=
  ⟨(c3_amended_direct_write failedKernel failingOracle).1,
   (c3_amended_direct_write failedKernel failingOracle).2.1
     (FileOp.create "zenith.kernel") (List.mem_cons_self _ _)⟩

end Kronos
